import Mathlib

set_option maxHeartbeats 1000000

namespace OcrService

/-! # Shallow embedding of the ocr_service language/model subsystem

This file embeds, from the Rust sources:
 - `src/models/languages.rs` (the `TesseractModel` record),
 - `src/models/error.rs` (the error taxonomy variants reachable here),
 - `src/utils/validations.rs` (`validate_language_params`, the resolution engine),
 - `src/utils/languages.rs` (`get_available_languages_with_models`, the catalog builder),
 - `src/routes/languages.rs` (the sorted languages listing),
 - the image-dimension computation of `src/routes/images.rs` (lines 106-146).

Strings are modelled by Lean `String`, with comparisons and slicing done on their
character lists; for valid UTF-8 the byte-wise operations of Rust (`starts_with`,
`ends_with`, `strip_prefix`, `strip_suffix`, lexicographic `cmp`) agree with the
character-wise operations used here, because UTF-8 encodes characters
left-to-right and no encoded character starts with a continuation byte.
`HashSet` values are modelled as lists in iteration order; claims about
iteration-order independence are stated over permutations of those lists.
Machine integers (`u32`, the `i32` of the Tesseract FFI) are modelled as `Nat`
with explicit `% 2^32` where Rust release-mode arithmetic wraps. -/

/-- The single-quote character as a one-character string; the Rust `format!`
messages in `validations.rs` quote user-supplied names with it. -/
def sq : String := ⟨[Char.ofNat 39]⟩

/-- Wraps a name in single quotes, as the `format!("... {} ...")` patterns do. -/
def quoted (s : String) : String := sq ++ s ++ sq

/-- Rust `str::starts_with` for a plain string pattern, at the character level. -/
def strStartsWith (s pre : String) : Bool := pre.data.isPrefixOf s.data

/-- Rust `str::ends_with` for a plain string pattern, at the character level. -/
def strEndsWith (s suf : String) : Bool := suf.data.isSuffixOf s.data

/-- The length of a string in characters. -/
def strLen (s : String) : Nat := s.data.length

/-- Remove the first `n` characters. -/
def strDrop (s : String) (n : Nat) : String := ⟨s.data.drop n⟩

/-- Remove the last `n` characters. -/
def strDropRight (s : String) (n : Nat) : String := ⟨s.data.take (s.data.length - n)⟩

/-- Rust `str::strip_prefix` for a plain pattern: remove the leading occurrence
if the string starts with it, otherwise `none`. -/
def stripLead? (s pre : String) : Option String :=
  if strStartsWith s pre then some (strDrop s (strLen pre)) else none

/-- Rust `str::strip_suffix` for a plain pattern: remove the trailing occurrence
if the string ends with it, otherwise `none`. -/
def stripSuffix? (s suf : String) : Option String :=
  if strEndsWith s suf then some (strDropRight s (strLen suf)) else none

/-- The recognized model-file extension, `src/utils/languages.rs`. -/
def EXT : String := ".traineddata"

/-- Helper for `trimEndExt`, with explicit fuel.  Each step removes the
12-character suffix `.traineddata`, so fuel `strLen s` always suffices. -/
def trimEndExtAux : Nat → String → String
  | 0, s => s
  | fuel + 1, s =>
      if strEndsWith s EXT then trimEndExtAux fuel (strDropRight s (strLen EXT)) else s

/-- Rust `str::trim_end_matches(".traineddata")`: repeatedly removes the
extension from the end (`src/utils/languages.rs` line 30). -/
def trimEndExt (s : String) : String := trimEndExtAux (strLen s) s

/-- From `src/models/languages.rs` lines 9-20: one installed language/model record.
The Rust `derive(PartialEq, Eq, Hash)` compares all four fields; the derived
`DecidableEq` here does the same. -/
structure TesseractModel where
  language : String
  model : Option String
  full_path : Option String
  relative_path : Option String
deriving DecidableEq

/-- From `src/models/error.rs`: the `ErrorType` variants constructible from the code
embedded here.  `InvalidJsonBody` wraps a framework rejection value and is never
constructed by the catalog/resolution/orchestrator code, so it is omitted. -/
inductive ErrorType where
  | InvalidRequest : String → ErrorType
  | InternalError : String → ErrorType
deriving DecidableEq

/-- From `src/models/images.rs` lines 20-27: the client query. -/
structure ImagesQueryParams where
  language : Option String
  model : Option String
deriving DecidableEq

instance {ε α : Type} [DecidableEq ε] [DecidableEq α] : DecidableEq (Except ε α) :=
  fun a b =>
    match a, b with
    | .ok x, .ok y =>
        if h : x = y then isTrue (by rw [h]) else isFalse (fun hh => by cases hh; exact h rfl)
    | .ok _, .error _ => isFalse (fun h => by cases h)
    | .error _, .ok _ => isFalse (fun h => by cases h)
    | .error e, .error f =>
        if h : e = f then isTrue (by rw [h]) else isFalse (fun hh => by cases hh; exact h rfl)

/-- Message `format!("Language must be specified when model is provided")`. -/
def msgModelWithoutLanguage : String :=
  "Language must be specified when model is provided"

/-- Message `format!("Language '{}' is not available", language)`. -/
def msgLanguageNotAvailable (language : String) : String :=
  "Language " ++ quoted language ++ " is not available"

/-- Message `format!("Model '{}' not found for language '{}'", requested_model, language)`. -/
def msgModelNotFound (requested language : String) : String :=
  "Model " ++ quoted requested ++ " not found for language " ++ quoted language

/-- Message `format!("Multiple models available for language '{}', please specify a model", language)`. -/
def msgAmbiguous (language : String) : String :=
  "Multiple models available for language " ++ quoted language ++
    ", please specify a model"

/-- From `src/utils/validations.rs` lines 38-79: the body of
`validate_language_params` once the effective language is fixed and the
catalog has been filtered to `matching`.  The `HashSet<TesseractModel>` is
modelled as a list in iteration order; `filter`, `find` and the length-1
indexing mirror the iterator pipeline of the source.  (The Rust code tests
`matching_language_models.len() == 1` and indexes `[0]`; the list pattern
`[m]` below is that same test.  The wildcard arm also covers the empty list,
where the source would likewise fall through to `find` on an empty vector and
fail with the ambiguity message - that path is unreachable behind the
`is_empty` check, in the source and here alike.) -/
def resolve_candidates (queryModel : Option String)
    (matching : List TesseractModel) (language : String) :
    Except ErrorType TesseractModel :=
  if matching.isEmpty then
    .error (.InvalidRequest (msgLanguageNotAvailable language))
  else
    match queryModel with
    | some requested =>
        match matching.find? (fun m => m.model == some requested) with
        | some m => .ok m
        | none => .error (.InvalidRequest (msgModelNotFound requested language))
    | none =>
        match matching with
        | [m] => .ok m
        | _ =>
            match matching.find? (fun m => m.model.isNone) with
            | some m => .ok m
            | none => .error (.InvalidRequest (msgAmbiguous language))

/-- From `src/utils/validations.rs` lines 14-24 joined with `resolve_candidates`
above: the model-without-language guard, the defaulting of the language, and
the filtering of the catalog by the effective language. -/
def validate_language_params (params : ImagesQueryParams)
    (available_languages : List TesseractModel) (default_language : String) :
    Except ErrorType TesseractModel :=
  if params.model.isSome && params.language.isNone then
    .error (.InvalidRequest msgModelWithoutLanguage)
  else
    let language := params.language.getD default_language
    resolve_candidates params.model
      (available_languages.filter (fun m => m.language == language)) language

/-- A file seen by the directory walk of `src/utils/languages.rs`.  The walk is
bounded to `min_depth(1).max_depth(2)` and keeps only regular files, so every
visited entry is either a file directly under the root (`file1 name`) or a file
one directory down (`file2 dir name`); the `_ => {}` arm of the source's depth
match is unreachable.  The strings are the on-disk component names (the file
name still carries its extension). -/
inductive FsEntry where
  | file1 : String → FsEntry
  | file2 : String → String → FsEntry
deriving DecidableEq

/-- Models `entry.file_name()`: the final path component of the entry. -/
def fileNameOf : FsEntry → String
  | .file1 n => n
  | .file2 _ n => n

/-- The directory component of a depth-2 entry
(`entry_result.path().parent().file_name()` in the source). -/
def dirNameOf : FsEntry → Option String
  | .file1 _ => none
  | .file2 d _ => some d

/-- From `src/utils/languages.rs` lines 82-88: skip entries whose file name starts
with a dot. -/
def is_non_hidden_file (e : FsEntry) : Bool := !(strStartsWith (fileNameOf e) ".")

/-- From `src/utils/languages.rs` lines 90-96: keep only files with the
`.traineddata` extension. -/
def is_traineddata_file (e : FsEntry) : Bool := strEndsWith (fileNameOf e) EXT

/-- The conjunction of the two iterator filters of lines 22-23. -/
def acceptedB (e : FsEntry) : Bool := is_non_hidden_file e && is_traineddata_file e

/-- The entry's path below the root. -/
def relFile : FsEntry → String
  | .file1 n => n
  | .file2 d n => d ++ "/" ++ n

/-- Models `entry_result.path().to_string_lossy()`: the configured data path (taken
without a trailing separator, as configured) joined with the below-root path. -/
def fullPathOf (root : String) (e : FsEntry) : String := root ++ "/" ++ relFile e

/-- From `src/utils/languages.rs` lines 34-41: strip the data-path prefix, then one
leading separator, then one `.traineddata` suffix, falling back to the empty
string when a strip fails. -/
def relative_path_of (root full : String) : String :=
  let s1 := ((stripLead? full root).map (fun s => (stripLead? s "/").getD s)).getD ""
  (stripSuffix? s1 EXT).getD ""

/-- The record inserted for an accepted entry: lines 46-51 (depth 1, `language`
is the file stem with all trailing extensions trimmed, `model` is `None`) and
lines 65-70 (depth 2, `language` is the directory name, `model` the trimmed
file stem). -/
def recordOf (root : String) : FsEntry → TesseractModel
  | .file1 n =>
      { language := trimEndExt n, model := none,
        full_path := some (fullPathOf root (.file1 n)),
        relative_path := some (relative_path_of root (fullPathOf root (.file1 n))) }
  | .file2 d n =>
      { language := d, model := some (trimEndExt n),
        full_path := some (fullPathOf root (.file2 d n)),
        relative_path := some (relative_path_of root (fullPathOf root (.file2 d n))) }

/-- The dedup key inserted into `languages_visited`: the trimmed stem at depth 1
(line 45), `format!("{}_{}", dir, stem)` at depth 2 (line 63). -/
def entryKey : FsEntry → String
  | .file1 n => trimEndExt n
  | .file2 d n => d ++ "_" ++ trimEndExt n

/-- The loop state of `get_available_languages_with_models`: the
`languages_visited` key set and the accumulated catalog.  Both `HashSet`s are
modelled as lists; `visited` membership is what `HashSet::insert`'s return
value tests, and `catalog` keeps insertion order. -/
structure BuildState where
  visited : List String
  catalog : List TesseractModel
deriving DecidableEq

/-- One iteration of the loop of `src/utils/languages.rs` lines 16-78: apply
the two filters, then insert the record unless its dedup key was already
visited. -/
def visitEntry (root : String) (st : BuildState) (e : FsEntry) : BuildState :=
  if acceptedB e then
    if entryKey e ∈ st.visited then st
    else { visited := entryKey e :: st.visited, catalog := st.catalog ++ [recordOf root e] }
  else st

/-- From `src/utils/languages.rs` lines 9-80: the catalog builder, as a fold over
the walked entries (the walk order is the list order). -/
def get_available_languages_with_models (root : String) (entries : List FsEntry) :
    List TesseractModel :=
  (entries.foldl (visitEntry root) ⟨[], []⟩).catalog

/-- Strict lexicographic order on character lists (what Rust's byte-wise
`str::cmp` computes on valid UTF-8). -/
def charListLt : List Char → List Char → Bool
  | _, [] => false
  | [], _ :: _ => true
  | a :: as, b :: bs => decide (a < b) || (a == b && charListLt as bs)

/-- Rust `String: Ord`, as a `≤` test: `a.cmp(b) != Greater`. -/
def strLeB (a b : String) : Bool := charListLt a.data b.data || a == b

/-- Rust `Option<String>: Ord` as a `≤` test: `None` sorts before any
`Some`, two `Some`s compare by their contents. -/
def optLeB (a b : Option String) : Bool :=
  match a, b with
  | none, _ => true
  | some _, none => false
  | some x, some y => strLeB x y

/-- The comparator of `src/routes/languages.rs` line 28,
`a.language.cmp(&b.language).then(a.model.cmp(&b.model))`, as a `≤` test
(comparator result is not `Greater`). -/
def tessLe (a b : TesseractModel) : Bool :=
  (charListLt a.language.data b.language.data) ||
    (a.language == b.language && optLeB a.model b.model)

/-- From `src/routes/languages.rs` lines 22-32: the languages listing collects the
catalog set into a vector (modelled as the input list, in iteration order) and
sorts it with the comparator above. -/
def languages_route (available : List TesseractModel) : List TesseractModel :=
  available.mergeSort tessLe

/-- Value `i32::MAX`: the Tesseract FFI (`tesseract_rs::TesseractAPI::set_image` and
the `bytes_per_line` conversion target) takes C `int` values, so the
`try_into()` calls of `src/routes/images.rs` convert `u32` to `i32`. -/
def I32_MAX : Nat := 2147483647

/-- Value `u32::MAX + 1`; Rust release-mode `u32` arithmetic wraps modulo this. -/
def U32_MOD : Nat := 4294967296

/-- From `src/routes/images.rs` line 18. -/
def BYTES_PER_PIXEL : Nat := 3

/-- A `u32 -> i32` `try_into()`, with the message of `TryFromIntError`. -/
def tryIntoI32 (n : Nat) : Except String Nat :=
  if n ≤ I32_MAX then .ok n else .error "out of range integral type conversion attempted"

/-- From `src/routes/images.rs` lines 106-141: after decoding, the image is
converted to RGB8 (3 bytes per pixel); `bytes_per_line` is computed as
`width * BYTES_PER_PIXEL` in `u32` (wrapping modulo `2^32` in release builds)
and converted to the engine's integer width, then `width` and `height` are
converted in the `set_image` argument list, each failure mapped to
`InvalidRequest` with the shown message.  Returns the `(width, height,
bytes_per_line)` triple handed to the engine. -/
def computeImageDims (width height : Nat) : Except ErrorType (Nat × Nat × Nat) :=
  let bytes_per_line_u32 := (width * BYTES_PER_PIXEL) % U32_MOD
  match tryIntoI32 bytes_per_line_u32 with
  | .error e => .error (.InvalidRequest ("Image dimensions are too large: " ++ e))
  | .ok bytes_per_line =>
      match tryIntoI32 width with
      | .error e => .error (.InvalidRequest ("Image width is too large: " ++ e))
      | .ok w =>
          match tryIntoI32 height with
          | .error e => .error (.InvalidRequest ("Image height is too large: " ++ e))
          | .ok h => .ok (w, h, bytes_per_line)

/-! ## Verification-side definitions

The remaining definitions are not part of the source: they name notions the
claims quantify over (effective language, candidate set, catalog invariant,
the builder's dedup key spelled out, well-formedness of on-disk names). -/

/-- The dedup key the builder inserts for a record it produced: the language
for an unqualified record, `language_model` for a qualified one.  For every
entry, `recKey (recordOf root e) = entryKey e`. -/
def recKey (r : TesseractModel) : String :=
  match r.model with
  | none => r.language
  | some m => r.language ++ "_" ++ m

/-- Two records with distinct dedup keys. -/
def keyDistinct (a b : TesseractModel) : Prop := recKey a ≠ recKey b

/-- The catalog invariant of spec section 3: no two records share
`(language, model)`. -/
def catalogWf (catalog : List TesseractModel) : Prop :=
  catalog.Pairwise (fun a b => ¬(a.language = b.language ∧ a.model = b.model))

/-- The effective language of a query: `query.language` if present, else the
default (`validations.rs` lines 27-30). -/
def effLanguage (params : ImagesQueryParams) (default_language : String) : String :=
  params.language.getD default_language

/-- The candidate records of the effective language (`validations.rs`
lines 33-36). -/
def candidatesOf (catalog : List TesseractModel) (params : ImagesQueryParams)
    (default_language : String) : List TesseractModel :=
  catalog.filter (fun m => m.language == effLanguage params default_language)

/-- The below-root path of an entry with exactly one trailing extension
removed: what `relative_path_of` computes for an accepted entry. -/
def relNoExt : FsEntry → String
  | .file1 n => strDropRight n (strLen EXT)
  | .file2 d n => d ++ "/" ++ strDropRight n (strLen EXT)

/-- Well-formedness of an on-disk entry: real path components are nonempty and
contain no separator; only the consequences needed here are assumed (the
directory name is nonempty, and no component starts with `/`). -/
def entryWf : FsEntry → Prop
  | .file1 n => strStartsWith n "/" = false
  | .file2 d n => d ≠ "" ∧ strStartsWith d "/" = false ∧ strStartsWith n "/" = false

/-- The record an entry contributes when no dedup applies: `some` for an
accepted entry, `none` for a filtered-out one.  On entry lists whose accepted
entries have pairwise distinct keys, the builder is exactly
`List.filterMap (entryRecord? root)`. -/
def entryRecord? (root : String) (e : FsEntry) : Option TesseractModel :=
  if acceptedB e then some (recordOf root e) else none

/-! ## Helper lemmas -/

theorem isPrefixOf_iff {α : Type} [BEq α] [LawfulBEq α] {l1 l2 : List α} :
    l1.isPrefixOf l2 = true ↔ l1 <+: l2 := List.isPrefixOf_iff_prefix

theorem take_isPre {α : Type} (n : Nat) (l : List α) : l.take n <+: l :=
  List.take_prefix n l

theorem data_append (s t : String) : (s ++ t).data = s.data ++ t.data := rfl

theorem string_eq_of_data {s t : String} (h : s.data = t.data) : s = t :=
  String.ext h

/-- If at most one element satisfies `p`, `find?` returns any satisfying
member. -/
theorem find?_eq_of_unique {α : Type} (p : α → Bool) {l : List α} {c : α}
    (hc : c ∈ l) (hpc : p c = true) (huniq : ∀ a ∈ l, p a = true → a = c) :
    l.find? p = some c := by
  cases hfind : l.find? p with
  | none =>
      exact absurd hpc (List.find?_eq_none.mp hfind c hc)
  | some x =>
      rw [huniq x (List.mem_of_find?_eq_some hfind) (List.find?_some hfind)]

/-- `find?` is invariant under permutation when at most one element satisfies
the predicate. -/
theorem find?_perm_of_unique {α : Type} (p : α → Bool) {l1 l2 : List α}
    (hp : l1.Perm l2)
    (huniq : ∀ a ∈ l1, ∀ b ∈ l1, p a = true → p b = true → a = b) :
    l1.find? p = l2.find? p := by
  cases h1 : l1.find? p with
  | none =>
      cases h2 : l2.find? p with
      | none => rfl
      | some x =>
          have hx := List.find?_some h2
          have hm : x ∈ l1 := hp.mem_iff.mpr (List.mem_of_find?_eq_some h2)
          exact absurd hx (List.find?_eq_none.mp h1 x hm)
  | some x =>
      have hx := List.find?_some h1
      have hm : x ∈ l1 := List.mem_of_find?_eq_some h1
      refine (find?_eq_of_unique p (hp.mem_iff.mp hm) hx ?_).symm
      intro a ha hpa
      exact huniq a (hp.mem_iff.mpr ha) x hm hpa hx

theorem recKey_recordOf (root : String) (e : FsEntry) :
    recKey (recordOf root e) = entryKey e := by
  cases e <;> rfl

theorem recKey_eq_of_fields {r s : TesseractModel}
    (hl : r.language = s.language) (hm : r.model = s.model) : recKey r = recKey s := by
  unfold recKey
  rw [hl, hm]

/-- The builder's loop step either keeps the state or appends one record whose
key was unvisited, recording that key. -/
theorem visitEntry_cases (root : String) (st : BuildState) (e : FsEntry) :
    visitEntry root st e = st ∨
      (acceptedB e = true ∧ entryKey e ∉ st.visited ∧
        visitEntry root st e =
          ⟨entryKey e :: st.visited, st.catalog ++ [recordOf root e]⟩) := by
  unfold visitEntry
  by_cases ha : acceptedB e = true
  · by_cases hv : entryKey e ∈ st.visited
    · left
      simp [ha, hv]
    · right
      exact ⟨ha, hv, by simp [ha, hv]⟩
  · left
    simp [ha]

/-- Invariant carried through the builder's fold: the accumulated catalog has
pairwise-distinct dedup keys, and every accumulated record's key has been
recorded in `visited`. -/
def buildInv (st : BuildState) : Prop :=
  st.catalog.Pairwise keyDistinct ∧ ∀ r ∈ st.catalog, recKey r ∈ st.visited

theorem visitEntry_inv (root : String) (st : BuildState) (e : FsEntry)
    (h : buildInv st) : buildInv (visitEntry root st e) := by
  rcases visitEntry_cases root st e with heq | ⟨_, hv, heq⟩
  · rw [heq]; exact h
  · rw [heq]
    obtain ⟨hpair, hmem⟩ := h
    constructor
    · rw [List.pairwise_append]
      refine ⟨hpair, List.pairwise_singleton _ _, ?_⟩
      intro a ha b hb
      rw [List.mem_singleton.mp hb, keyDistinct, recKey_recordOf]
      intro hkey
      exact hv (hkey ▸ hmem a ha)
    · intro r hr
      rcases List.mem_append.mp hr with hr | hr
      · exact List.mem_cons_of_mem _ (hmem r hr)
      · rw [List.mem_singleton.mp hr, recKey_recordOf]
        exact List.mem_cons_self _ _

theorem foldl_inv (root : String) (es : List FsEntry) (st : BuildState)
    (h : buildInv st) : buildInv (es.foldl (visitEntry root) st) := by
  induction es generalizing st with
  | nil => exact h
  | cons e rest ih => exact ih _ (visitEntry_inv root st e h)

/-- The catalog the builder produces always has pairwise-distinct dedup keys. -/
theorem build_pairwise_keyDistinct (root : String) (entries : List FsEntry) :
    (get_available_languages_with_models root entries).Pairwise keyDistinct :=
  (foldl_inv root entries ⟨[], []⟩ ⟨List.Pairwise.nil, by simp⟩).1

/-- Keys distinct implies `(language, model)` pairs distinct, hence the
catalog invariant. -/
theorem build_catalogWf (root : String) (entries : List FsEntry) :
    catalogWf (get_available_languages_with_models root entries) := by
  refine (build_pairwise_keyDistinct root entries).imp ?_
  intro a b hk ⟨hl, hm⟩
  exact hk (recKey_eq_of_fields hl hm)

/-- The loop only ever appends to the catalog: the catalog built from a run of
entries is a prefix of the catalog built after more entries are visited. -/
theorem foldl_catalog_grows (root : String) (es : List FsEntry) (st : BuildState) :
    st.catalog <+: (es.foldl (visitEntry root) st).catalog := by
  induction es generalizing st with
  | nil => exact List.prefix_rfl
  | cons e rest ih =>
      refine List.IsPrefix.trans ?_ (ih (visitEntry root st e))
      rcases visitEntry_cases root st e with heq | ⟨_, _, heq⟩
      · rw [heq]
      · rw [heq]
        exact List.prefix_append _ _

/-- Records come only from accepted entries, unchanged. -/
theorem mem_foldl_catalog (root : String) (es : List FsEntry) (st : BuildState)
    {r : TesseractModel} (hr : r ∈ (es.foldl (visitEntry root) st).catalog) :
    r ∈ st.catalog ∨ ∃ e ∈ es, acceptedB e = true ∧ r = recordOf root e := by
  induction es generalizing st with
  | nil => exact Or.inl hr
  | cons e rest ih =>
      rcases ih (visitEntry root st e) hr with hin | ⟨f, hf, haf, hrf⟩
      · rcases visitEntry_cases root st e with heq | ⟨ha, _, heq⟩
        · rw [heq] at hin
          exact Or.inl hin
        · rw [heq] at hin
          rcases List.mem_append.mp hin with hin | hin
          · exact Or.inl hin
          · exact Or.inr ⟨e, List.mem_cons_self _ _, ha, List.mem_singleton.mp hin⟩
      · exact Or.inr ⟨f, List.mem_cons_of_mem _ hf, haf, hrf⟩

theorem mem_build (root : String) (entries : List FsEntry) {r : TesseractModel}
    (hr : r ∈ get_available_languages_with_models root entries) :
    ∃ e ∈ entries, acceptedB e = true ∧ r = recordOf root e := by
  rcases mem_foldl_catalog root entries ⟨[], []⟩ hr with hin | h
  · cases hin
  · exact h

/-- When the accepted entries carry pairwise-distinct dedup keys and none of
those keys has been visited yet, the fold is a plain `filterMap`: every
accepted entry contributes its record, in traversal order. -/
theorem foldl_eq_filterMap (root : String) (es : List FsEntry) (st : BuildState)
    (hdist : (es.filter acceptedB).Pairwise (fun a b => entryKey a ≠ entryKey b))
    (hnew : ∀ e ∈ es, acceptedB e = true → entryKey e ∉ st.visited) :
    (es.foldl (visitEntry root) st).catalog =
      st.catalog ++ es.filterMap (entryRecord? root) := by
  induction es generalizing st with
  | nil => simp
  | cons e rest ih =>
      by_cases ha : acceptedB e = true
      · have hst : visitEntry root st e =
            ⟨entryKey e :: st.visited, st.catalog ++ [recordOf root e]⟩ := by
          unfold visitEntry
          simp [ha, hnew e (List.mem_cons_self _ _) ha]
        have hdist' : (rest.filter acceptedB).Pairwise
            (fun a b => entryKey a ≠ entryKey b) := by
          rw [List.filter_cons_of_pos ha] at hdist
          exact hdist.of_cons
        have hhead : ∀ f ∈ rest.filter acceptedB, entryKey e ≠ entryKey f := by
          rw [List.filter_cons_of_pos ha] at hdist
          exact fun f hf => List.rel_of_pairwise_cons hdist hf
        have hnew' : ∀ f ∈ rest, acceptedB f = true →
            entryKey f ∉ (visitEntry root st e).visited := by
          intro f hf haf
          rw [hst]
          intro hmem
          rcases List.mem_cons.mp hmem with hk | hk
          · exact hhead f (List.mem_filter.mpr ⟨hf, haf⟩) hk.symm
          · exact hnew f (List.mem_cons_of_mem _ hf) haf hk
        rw [List.foldl_cons, ih (visitEntry root st e) hdist' hnew', hst]
        simp [entryRecord?, ha]
      · have hst : visitEntry root st e = st := by
          unfold visitEntry
          simp [ha]
        have hdist' : (rest.filter acceptedB).Pairwise
            (fun a b => entryKey a ≠ entryKey b) := by
          rw [List.filter_cons_of_neg (by simpa using ha)] at hdist
          exact hdist
        rw [List.foldl_cons, hst,
          ih st hdist' (fun f hf haf => hnew f (List.mem_cons_of_mem _ hf) haf)]
        simp [entryRecord?, ha]

theorem build_eq_filterMap (root : String) (entries : List FsEntry)
    (hdist : (entries.filter acceptedB).Pairwise (fun a b => entryKey a ≠ entryKey b)) :
    get_available_languages_with_models root entries =
      entries.filterMap (entryRecord? root) := by
  unfold get_available_languages_with_models
  rw [foldl_eq_filterMap root entries ⟨[], []⟩ hdist (by simp)]
  rfl

/-- Visitation-order independence of the builder on duplicate-free trees: when
the accepted entries have pairwise-distinct keys, permuting the traversal
permutes the catalog. -/
theorem build_perm (root : String) {es1 es2 : List FsEntry} (h : es1.Perm es2)
    (hdist : (es1.filter acceptedB).Pairwise (fun a b => entryKey a ≠ entryKey b)) :
    (get_available_languages_with_models root es1).Perm
      (get_available_languages_with_models root es2) := by
  have hdist2 : (es2.filter acceptedB).Pairwise (fun a b => entryKey a ≠ entryKey b) :=
    ((h.filter acceptedB).pairwise_iff (fun hab h => hab h.symm)).mp hdist
  rw [build_eq_filterMap root es1 hdist, build_eq_filterMap root es2 hdist2]
  exact h.filterMap _

theorem charListLt_trans : ∀ {a b c : List Char},
    charListLt a b = true → charListLt b c = true → charListLt a c = true := by
  intro a
  induction a with
  | nil =>
      intro b c h1 h2
      cases c with
      | nil => cases b <;> simp [charListLt] at h1 h2
      | cons c0 cs => simp [charListLt]
  | cons a0 as ih =>
      intro b c h1 h2
      cases b with
      | nil => simp [charListLt] at h1
      | cons b0 bs =>
          cases c with
          | nil => simp [charListLt] at h2
          | cons c0 cs =>
              simp only [charListLt, Bool.or_eq_true, Bool.and_eq_true,
                decide_eq_true_eq, beq_iff_eq] at h1 h2 ⊢
              rcases h1 with h1 | ⟨h1e, h1r⟩
              · rcases h2 with h2 | ⟨h2e, h2r⟩
                · exact Or.inl (lt_trans h1 h2)
                · exact Or.inl (h2e ▸ h1)
              · rcases h2 with h2 | ⟨h2e, h2r⟩
                · exact Or.inl (h1e ▸ h2)
                · exact Or.inr ⟨h1e.trans h2e, ih h1r h2r⟩

theorem charListLt_trichotomy : ∀ (a b : List Char),
    charListLt a b = true ∨ a = b ∨ charListLt b a = true := by
  intro a
  induction a with
  | nil =>
      intro b
      cases b with
      | nil => exact Or.inr (Or.inl rfl)
      | cons b0 bs => exact Or.inl (by simp [charListLt])
  | cons a0 as ih =>
      intro b
      cases b with
      | nil => exact Or.inr (Or.inr (by simp [charListLt]))
      | cons b0 bs =>
          rcases lt_trichotomy a0 b0 with hc | hc | hc
          · exact Or.inl (by simp [charListLt, hc])
          · rcases ih bs with hr | hr | hr
            · exact Or.inl (by simp [charListLt, hc, hr])
            · exact Or.inr (Or.inl (by rw [hc, hr]))
            · exact Or.inr (Or.inr (by simp [charListLt, hc.symm, hr]))
          · exact Or.inr (Or.inr (by simp [charListLt, hc]))

theorem strLeB_trans {a b c : String} (h1 : strLeB a b = true)
    (h2 : strLeB b c = true) : strLeB a c = true := by
  simp only [strLeB, Bool.or_eq_true, beq_iff_eq] at h1 h2 ⊢
  rcases h1 with h1 | h1
  · rcases h2 with h2 | h2
    · exact Or.inl (charListLt_trans h1 h2)
    · exact Or.inl (h2 ▸ h1)
  · rcases h2 with h2 | h2
    · exact Or.inl (h1 ▸ h2)
    · exact Or.inr (h1.trans h2)

theorem strLeB_total (a b : String) : (strLeB a b || strLeB b a) = true := by
  simp only [strLeB, Bool.or_eq_true, beq_iff_eq]
  rcases charListLt_trichotomy a.data b.data with h | h | h
  · exact Or.inl (Or.inl h)
  · exact Or.inl (Or.inr (string_eq_of_data h))
  · exact Or.inr (Or.inl h)

theorem optLeB_trans {a b c : Option String} (h1 : optLeB a b = true)
    (h2 : optLeB b c = true) : optLeB a c = true := by
  cases a with
  | none => simp [optLeB]
  | some x =>
      cases b with
      | none => simp [optLeB] at h1
      | some y =>
          cases c with
          | none => simp [optLeB] at h2
          | some z =>
              simp only [optLeB] at h1 h2 ⊢
              exact strLeB_trans h1 h2

theorem optLeB_total (a b : Option String) : (optLeB a b || optLeB b a) = true := by
  cases a with
  | none => simp [optLeB]
  | some x =>
      cases b with
      | none => simp [optLeB]
      | some y => simpa [optLeB] using strLeB_total x y

theorem tessLe_trans (a b c : TesseractModel) (h1 : tessLe a b = true)
    (h2 : tessLe b c = true) : tessLe a c = true := by
  simp only [tessLe, Bool.or_eq_true, Bool.and_eq_true, beq_iff_eq] at h1 h2 ⊢
  rcases h1 with h1 | ⟨h1e, h1m⟩
  · rcases h2 with h2 | ⟨h2e, h2m⟩
    · exact Or.inl (charListLt_trans h1 h2)
    · exact Or.inl (h2e ▸ h1)
  · rcases h2 with h2 | ⟨h2e, h2m⟩
    · exact Or.inl (h1e ▸ h2)
    · exact Or.inr ⟨h1e.trans h2e, optLeB_trans h1m h2m⟩

theorem tessLe_total (a b : TesseractModel) : (tessLe a b || tessLe b a) = true := by
  simp only [tessLe, Bool.or_eq_true, Bool.and_eq_true, beq_iff_eq]
  rcases charListLt_trichotomy a.language.data b.language.data with h | h | h
  · exact Or.inl (Or.inl h)
  · have he : a.language = b.language := string_eq_of_data h
    rcases Bool.or_eq_true _ _ |>.mp (optLeB_total a.model b.model) with hm | hm
    · exact Or.inl (Or.inr ⟨he, hm⟩)
    · exact Or.inr (Or.inr ⟨he.symm, hm⟩)
  · exact Or.inr (Or.inl h)

theorem resolve_candidates_nil (qm : Option String) (lang : String) :
    resolve_candidates qm [] lang =
      .error (.InvalidRequest (msgLanguageNotAvailable lang)) := rfl

theorem resolve_candidates_some (requested lang : String)
    {matching : List TesseractModel} (hne : matching ≠ []) :
    resolve_candidates (some requested) matching lang =
      match matching.find? (fun m => m.model == some requested) with
      | some m => .ok m
      | none => .error (.InvalidRequest (msgModelNotFound requested lang)) := by
  unfold resolve_candidates
  rw [if_neg (by simp [List.isEmpty_iff, hne])]

theorem resolve_candidates_none_single (lang : String) (m : TesseractModel) :
    resolve_candidates none [m] lang = .ok m := by
  unfold resolve_candidates
  rw [if_neg (by simp [List.isEmpty_iff])]

theorem resolve_candidates_none_multi (lang : String)
    {matching : List TesseractModel} (h2 : 2 ≤ matching.length) :
    resolve_candidates none matching lang =
      match matching.find? (fun m => m.model.isNone) with
      | some m => .ok m
      | none => .error (.InvalidRequest (msgAmbiguous lang)) := by
  rcases matching with _ | ⟨a, _ | ⟨b, t⟩⟩
  · simp at h2
  · simp at h2
  · unfold resolve_candidates
    rw [if_neg (by simp [List.isEmpty_iff])]

/-- Unfolding of the resolution engine past its guard: with the guard false,
it resolves the query model against the candidate set of the effective
language. -/
theorem validate_unfold (params : ImagesQueryParams)
    (catalog : List TesseractModel) (d : String)
    (hg : (params.model.isSome && params.language.isNone) = false) :
    validate_language_params params catalog d =
      resolve_candidates params.model (candidatesOf catalog params d)
        (effLanguage params d) := by
  unfold validate_language_params
  rw [if_neg (by simp [hg])]
  rfl

theorem validate_guard (params : ImagesQueryParams)
    (catalog : List TesseractModel) (d : String)
    (hg : (params.model.isSome && params.language.isNone) = true) :
    validate_language_params params catalog d =
      .error (.InvalidRequest msgModelWithoutLanguage) := by
  unfold validate_language_params
  rw [if_pos (by simp [hg])]

/-- In a well-formed catalog, candidates of one language are determined by
their `model` field. -/
theorem filter_model_unique {l : List TesseractModel} (hwf : catalogWf l)
    (lang : String) :
    ∀ a ∈ l.filter (fun m => m.language == lang),
      ∀ b ∈ l.filter (fun m => m.language == lang), a.model = b.model → a = b := by
  intro a ha b hb hm
  obtain ⟨ha1, ha2⟩ := List.mem_filter.mp ha
  obtain ⟨hb1, hb2⟩ := List.mem_filter.mp hb
  by_contra hne
  have hsym : Symmetric
      (fun x y : TesseractModel => ¬(x.language = y.language ∧ x.model = y.model)) :=
    fun x y h hxy => h ⟨hxy.1.symm, hxy.2.symm⟩
  exact (hwf.forall hsym ha1 hb1 hne)
    ⟨(beq_iff_eq.mp ha2).trans (beq_iff_eq.mp hb2).symm, hm⟩

/-- The candidate scan is insensitive to iteration order when candidates are
determined by their `model` field. -/
theorem resolve_candidates_perm (qm : Option String) (lang : String)
    {m1 m2 : List TesseractModel} (hp : m1.Perm m2)
    (hmod : ∀ a ∈ m1, ∀ b ∈ m1, a.model = b.model → a = b) :
    resolve_candidates qm m1 lang = resolve_candidates qm m2 lang := by
  rcases hnil : m1 with _ | ⟨a1, t1⟩
  · rw [hnil] at hp
    rw [(hp.nil_eq).symm]
  · rw [← hnil]
    have hne1 : m1 ≠ [] := by rw [hnil]; exact List.cons_ne_nil _ _
    have hne2 : m2 ≠ [] := by
      intro h
      rw [h] at hp
      exact hne1 hp.eq_nil
    cases qm with
    | some requested =>
        rw [resolve_candidates_some requested lang hne1,
          resolve_candidates_some requested lang hne2,
          find?_perm_of_unique (fun m => m.model == some requested) hp ?_]
        intro a ha b hb hpa hpb
        exact hmod a ha b hb ((beq_iff_eq.mp hpa).trans (beq_iff_eq.mp hpb).symm)
    | none =>
        rcases t1 with _ | ⟨b1, t1'⟩
        · have hm2 : m2 = [a1] := List.singleton_perm.mp (hnil ▸ hp) |>.symm
          rw [hnil, hm2, resolve_candidates_none_single]
        · have h21 : 2 ≤ m1.length := by rw [hnil]; simp
          have h22 : 2 ≤ m2.length := hp.length_eq ▸ h21
          rw [resolve_candidates_none_multi lang h21,
            resolve_candidates_none_multi lang h22,
            find?_perm_of_unique (fun m => m.model.isNone) hp ?_]
          intro a ha b hb hpa hpb
          exact hmod a ha b hb
            ((Option.isNone_iff_eq_none.mp hpa).trans
              (Option.isNone_iff_eq_none.mp hpb).symm)

theorem strip_lead_append (root rest : String) :
    stripLead? (root ++ rest) root = some rest := by
  unfold stripLead? strStartsWith strDrop strLen
  rw [if_pos (isPrefixOf_iff.mpr ⟨rest.data, (data_append root rest).symm⟩)]
  congr 1
  apply string_eq_of_data
  show ((root ++ rest).data).drop root.data.length = rest.data
  rw [data_append, List.drop_left]

theorem strDropRight_append (a b : String) (k : Nat) (hk : k ≤ strLen b) :
    strDropRight (a ++ b) k = a ++ strDropRight b k := by
  apply string_eq_of_data
  show ((a ++ b).data).take ((a ++ b).data.length - k) =
    a.data ++ (b.data.take (b.data.length - k))
  rw [data_append, List.length_append]
  have harith : a.data.length + b.data.length - k = a.data.length + (b.data.length - k) := by
    have : k ≤ b.data.length := hk
    omega
  rw [harith, List.take_append]

/-- For any accepted entry, the source's `relative_path` computation yields
the below-root path with exactly one trailing extension stripped. -/
theorem relative_path_eq (root : String) (e : FsEntry)
    (he : is_traineddata_file e = true) :
    relative_path_of root (fullPathOf root e) = relNoExt e := by
  have h1 : stripLead? (fullPathOf root e) root = some ("/" ++ relFile e) := by
    have hful : fullPathOf root e = root ++ ("/" ++ relFile e) := by
      apply string_eq_of_data
      simp [fullPathOf, data_append, List.append_assoc]
    rw [hful, strip_lead_append]
  have h2 : stripLead? ("/" ++ relFile e) "/" = some (relFile e) := strip_lead_append _ _
  have hsuf : strEndsWith (relFile e) EXT = true := by
    cases e with
    | file1 n => exact he
    | file2 d n =>
        unfold strEndsWith
        rw [List.isSuffixOf_iff_suffix]
        have hn : EXT.data <:+ n.data := List.isSuffixOf_iff_suffix.mp he
        show EXT.data <:+ (d ++ "/" ++ n).data
        rw [show d ++ "/" ++ n = (d ++ "/") ++ n from rfl, data_append]
        exact hn.trans (List.suffix_append _ _)
  unfold relative_path_of
  rw [h1]
  simp only [Option.map_some', h2, Option.getD_some]
  rw [stripSuffix?, if_pos hsuf]
  simp only [Option.getD_some]
  cases e with
  | file1 n => rfl
  | file2 d n =>
      show strDropRight ((d ++ "/") ++ n) (strLen EXT) = d ++ "/" ++ strDropRight n (strLen EXT)
      have hlen : strLen EXT ≤ strLen n :=
        (List.isSuffixOf_iff_suffix.mp he).length_le
      exact strDropRight_append (d ++ "/") n _ hlen

theorem startsWith_of_dropRight {s pre : String} {k : Nat}
    (h : strStartsWith (strDropRight s k) pre = true) : strStartsWith s pre = true := by
  unfold strStartsWith at h ⊢
  rw [isPrefixOf_iff] at h ⊢
  exact h.trans (take_isPre _ _)

theorem data_ne_nil_of_ne_empty {s : String} (h : s ≠ "") : s.data ≠ [] := by
  intro hd
  exact h (string_eq_of_data hd)

/-- A well-formed entry's relative path (extension stripped) never starts with
a separator. -/
theorem relNoExt_not_slash (e : FsEntry) (hwf : entryWf e) :
    strStartsWith (relNoExt e) "/" = false := by
  cases e with
  | file1 n =>
      have hn : strStartsWith n "/" = false := hwf
      rw [Bool.eq_false_iff]
      intro hb
      rw [startsWith_of_dropRight hb] at hn
      cases hn
  | file2 d n =>
      obtain ⟨hd, hds, _⟩ := hwf
      rw [Bool.eq_false_iff]
      intro hb
      replace hb : strStartsWith ((d ++ "/") ++ strDropRight n (strLen EXT)) "/" = true := hb
      unfold strStartsWith at hb
      rw [isPrefixOf_iff] at hb
      obtain ⟨t, ht⟩ := hb
      rcases hdd : d.data with _ | ⟨c, rest⟩
      · exact data_ne_nil_of_ne_empty hd hdd
      · rw [data_append, data_append, hdd] at ht
        have hhead := congrArg List.head? ht
        simp only [List.cons_append, List.head?_cons] at hhead
        have hc : c = Char.ofNat 47 := by
          rw [← Option.some.inj hhead]
        rw [Bool.eq_false_iff] at hds
        apply hds
        unfold strStartsWith
        rw [isPrefixOf_iff, hdd, hc]
        exact ⟨rest, by rfl⟩

theorem ext_not_suffix_cons_slash {s : List Char} (hs : ¬ EXT.data <:+ s) :
    ∀ d : List Char, ¬ EXT.data <:+ d ++ Char.ofNat 47 :: s := by
  intro d
  induction d with
  | nil =>
      intro h
      rcases List.suffix_cons_iff.mp h with h | h
      · have : Char.ofNat 47 ∈ EXT.data := by
          rw [h]
          exact List.mem_cons_self _ _
        exact absurd this (by decide)
      · exact hs h
  | cons c cs ih =>
      intro h
      rw [List.cons_append] at h
      rcases List.suffix_cons_iff.mp h with h | h
      · have : Char.ofNat 47 ∈ EXT.data := by
          rw [h]
          exact List.mem_cons_of_mem _ (List.mem_append_right _ (List.mem_cons_self _ _))
        exact absurd this (by decide)
      · exact ih h

/-- Appending below a directory cannot manufacture the extension: if the
stripped stem does not end with `.traineddata`, neither does `dir/stem`. -/
theorem strEndsWith_slash_concat {d stem : String}
    (h : strEndsWith stem EXT = false) :
    strEndsWith (d ++ "/" ++ stem) EXT = false := by
  rw [Bool.eq_false_iff]
  intro hb
  unfold strEndsWith at hb
  rw [List.isSuffixOf_iff_suffix] at hb
  have hs : ¬ EXT.data <:+ stem.data := by
    intro hx
    unfold strEndsWith at h
    have hx2 : EXT.data.isSuffixOf stem.data = true := List.isSuffixOf_iff_suffix.mpr hx
    rw [hx2] at h
    cases h
  have hdata : (d ++ "/" ++ stem).data = d.data ++ Char.ofNat 47 :: stem.data := by
    rw [show d ++ "/" ++ stem = (d ++ "/") ++ stem from rfl, data_append, data_append]
    have : ("/" : String).data = [Char.ofNat 47] := by decide
    rw [this, List.append_assoc, List.singleton_append]
  rw [hdata] at hb
  exact ext_not_suffix_cons_slash hs d.data hb

theorem candidates_nil_iff (catalog : List TesseractModel)
    (params : ImagesQueryParams) (d : String) :
    candidatesOf catalog params d = [] ↔
      ∀ r ∈ catalog, r.language ≠ effLanguage params d := by
  constructor
  · intro h r hr heq
    have hmem : r ∈ candidatesOf catalog params d :=
      List.mem_filter.mpr ⟨hr, by simp [heq]⟩
    rw [h] at hmem
    cases hmem
  · intro h
    apply List.eq_nil_iff_forall_not_mem.mpr
    intro r hr
    obtain ⟨hr1, hr2⟩ := List.mem_filter.mp hr
    exact h r hr1 (beq_iff_eq.mp hr2)

/-! ## Claim theorems -/

/-- C4: for every input directory tree, the catalog produced by the builder
contains no two records with equal `(language, model)` pairs; duplicate keys
met during traversal are silently skipped (the traversal only ever appends
records, so earlier records are a stable prefix as more entries are visited),
never inserted twice and never an error (the builder is a total function). -/
theorem c4_catalog_unique_keys (root : String) (entries : List FsEntry) :
    (get_available_languages_with_models root entries).Pairwise
      (fun a b => ¬(a.language = b.language ∧ a.model = b.model)) ∧
    ∀ more : List FsEntry,
      get_available_languages_with_models root entries <+:
        get_available_languages_with_models root (entries ++ more) := by
  refine ⟨build_catalogWf root entries, fun more => ?_⟩
  unfold get_available_languages_with_models
  rw [List.foldl_append]
  exact foldl_catalog_grows root more _

/-- C9: resolution is deterministic.  For any two catalogs that are
permutations of one another (same records, arbitrary iteration order), with no
two records sharing `(language, model)`, and for equal queries and equal
default languages, `validate_language_params` returns equal results. -/
theorem c9_resolution_deterministic (params : ImagesQueryParams) (d : String)
    {l1 l2 : List TesseractModel} (hperm : l1.Perm l2) (hwf : catalogWf l1) :
    validate_language_params params l1 d = validate_language_params params l2 d := by
  by_cases hg : (params.model.isSome && params.language.isNone) = true
  · rw [validate_guard params l1 d hg, validate_guard params l2 d hg]
  · have hgf : (params.model.isSome && params.language.isNone) = false :=
      Bool.eq_false_iff.mpr hg
    rw [validate_unfold params l1 d hgf, validate_unfold params l2 d hgf]
    exact resolve_candidates_perm params.model (effLanguage params d)
      (hperm.filter _) (filter_model_unique hwf (effLanguage params d))

theorem c9_witness :
    validate_language_params ⟨some "eng", none⟩
        [⟨"eng", none, none, none⟩, ⟨"deu", none, none, none⟩] "eng" =
      validate_language_params ⟨some "eng", none⟩
        [⟨"deu", none, none, none⟩, ⟨"eng", none, none, none⟩] "eng" :=
  c9_resolution_deterministic ⟨some "eng", none⟩ "eng" (by decide)
    (by simp [catalogWf, List.pairwise_cons])

/-- C7: the languages listing returns exactly the catalog's records, sorted
ascending by the `(language, model)` comparator in which a missing model sorts
before any present one: the output is a sorted permutation of the catalog. -/
theorem c7_languages_sorted (catalog : List TesseractModel) :
    (languages_route catalog).Perm catalog ∧
      (languages_route catalog).Pairwise (fun a b => tessLe a b = true) :=
  ⟨List.mergeSort_perm catalog tessLe,
    List.sorted_mergeSort tessLe_trans tessLe_total catalog⟩

/-- C8 (code bug): the claim demands `bytes-per-scanline = width * 3` with an
`InvalidRequest` whenever that value does not fit the engine's `i32`.  The
source computes `width * BYTES_PER_PIXEL` in `u32`, which wraps: at
`width = 1431655766` the true scanline size is `4294967298 > i32::MAX`, yet
the wrapped value `2` passes every check and no error is returned (and the
computed value is not `width * 3`). -/
theorem c8_dimension_check_bug :
    computeImageDims 1431655766 1 = .ok (1431655766, 1, 2) ∧
    1431655766 * BYTES_PER_PIXEL = 4294967298 ∧
    I32_MAX < 1431655766 * BYTES_PER_PIXEL ∧
    (2 : Nat) ≠ 1431655766 * BYTES_PER_PIXEL := by decide

/-- C10: the builder's dedup key concatenates directory name, underscore and
file stem into one string namespace shared with depth-1 names, so distinct
`(language, model)` combinations can collide: `a_b/c` against `a/b_c`, and the
depth-1 file `a_b` against `a/b`.  In each pair only the first-visited file
yields a record and the other combination is silently absent. -/
theorem c10_key_collision :
    (entryKey (.file2 "a_b" "c.traineddata") = entryKey (.file2 "a" "b_c.traineddata") ∧
      ("a_b", some "c") ≠ ("a", some "b_c") ∧
      get_available_languages_with_models "tessdata"
          [.file2 "a_b" "c.traineddata", .file2 "a" "b_c.traineddata"] =
        [⟨"a_b", some "c", some "tessdata/a_b/c.traineddata", some "a_b/c"⟩] ∧
      ¬∃ r ∈ get_available_languages_with_models "tessdata"
          [.file2 "a_b" "c.traineddata", .file2 "a" "b_c.traineddata"],
            r.language = "a" ∧ r.model = some "b_c") ∧
    (entryKey (.file1 "a_b.traineddata") = entryKey (.file2 "a" "b.traineddata") ∧
      ("a_b", (none : Option String)) ≠ ("a", some "b") ∧
      get_available_languages_with_models "tessdata"
          [.file1 "a_b.traineddata", .file2 "a" "b.traineddata"] =
        [⟨"a_b", none, some "tessdata/a_b.traineddata", some "a_b"⟩] ∧
      ¬∃ r ∈ get_available_languages_with_models "tessdata"
          [.file1 "a_b.traineddata", .file2 "a" "b.traineddata"],
            r.language = "a" ∧ r.model = some "b") := by decide

/-- C3: a root holding `eng.traineddata`, `fra.traineddata`,
`chi_sim/fast.traineddata`, `chi_sim/best.traineddata`, one hidden file and one
non-model-extension file yields exactly the four records
`(eng, None)`, `(fra, None)`, `(chi_sim, fast)`, `(chi_sim, best)`, whatever
order the walk visits the files in; the hidden file and the wrong-extension
file contribute nothing. -/
theorem c3_catalog_dedup (l : List FsEntry)
    (hperm : l.Perm
      [.file1 "eng.traineddata", .file1 "fra.traineddata",
       .file2 "chi_sim" "fast.traineddata", .file2 "chi_sim" "best.traineddata",
       .file1 ".hidden.traineddata", .file1 "invalid.txt"]) :
    (get_available_languages_with_models "tessdata" l).Perm
      [⟨"eng", none, some "tessdata/eng.traineddata", some "eng"⟩,
       ⟨"fra", none, some "tessdata/fra.traineddata", some "fra"⟩,
       ⟨"chi_sim", some "fast", some "tessdata/chi_sim/fast.traineddata",
         some "chi_sim/fast"⟩,
       ⟨"chi_sim", some "best", some "tessdata/chi_sim/best.traineddata",
         some "chi_sim/best"⟩] ∧
    (get_available_languages_with_models "tessdata" l).length = 4 := by
  have hdist : (l.filter acceptedB).Pairwise (fun a b => entryKey a ≠ entryKey b) :=
    ((hperm.filter acceptedB).pairwise_iff (fun hab h => hab h.symm)).mpr (by decide)
  have hp := build_perm "tessdata" hperm hdist
  have hconc : get_available_languages_with_models "tessdata"
      [.file1 "eng.traineddata", .file1 "fra.traineddata",
       .file2 "chi_sim" "fast.traineddata", .file2 "chi_sim" "best.traineddata",
       .file1 ".hidden.traineddata", .file1 "invalid.txt"] =
      [⟨"eng", none, some "tessdata/eng.traineddata", some "eng"⟩,
       ⟨"fra", none, some "tessdata/fra.traineddata", some "fra"⟩,
       ⟨"chi_sim", some "fast", some "tessdata/chi_sim/fast.traineddata",
         some "chi_sim/fast"⟩,
       ⟨"chi_sim", some "best", some "tessdata/chi_sim/best.traineddata",
         some "chi_sim/best"⟩] := by decide
  constructor
  · rw [← hconc]
    exact hp
  · rw [hp.length_eq, hconc]
    rfl

theorem c3_witness :
    (get_available_languages_with_models "tessdata"
      [.file1 "eng.traineddata", .file1 "fra.traineddata",
       .file2 "chi_sim" "fast.traineddata", .file2 "chi_sim" "best.traineddata",
       .file1 ".hidden.traineddata", .file1 "invalid.txt"]).Perm
      [⟨"eng", none, some "tessdata/eng.traineddata", some "eng"⟩,
       ⟨"fra", none, some "tessdata/fra.traineddata", some "fra"⟩,
       ⟨"chi_sim", some "fast", some "tessdata/chi_sim/fast.traineddata",
         some "chi_sim/fast"⟩,
       ⟨"chi_sim", some "best", some "tessdata/chi_sim/best.traineddata",
         some "chi_sim/best"⟩] ∧
    (get_available_languages_with_models "tessdata"
      [.file1 "eng.traineddata", .file1 "fra.traineddata",
       .file2 "chi_sim" "fast.traineddata", .file2 "chi_sim" "best.traineddata",
       .file1 ".hidden.traineddata", .file1 "invalid.txt"]).length = 4 :=
  c3_catalog_dedup _ (List.Perm.refl _)

/-- C5 counterexample: the claim says two records are the same catalog entry
iff `(language, model)` agree, with the path fields not identity-bearing.  The
derived equality of `TesseractModel` (Rust `derive(PartialEq, Eq, Hash)`)
compares all four fields: these two records agree on `(language, model)` yet
are distinct values (and a `HashSet<TesseractModel>` can hold both). -/
theorem c5_counterexample :
    (⟨"eng", none, some "a/eng.traineddata", some "eng"⟩ : TesseractModel).language =
      (⟨"eng", none, some "b/eng.traineddata", some "eng2"⟩ : TesseractModel).language ∧
    (⟨"eng", none, some "a/eng.traineddata", some "eng"⟩ : TesseractModel).model =
      (⟨"eng", none, some "b/eng.traineddata", some "eng2"⟩ : TesseractModel).model ∧
    (⟨"eng", none, some "a/eng.traineddata", some "eng"⟩ : TesseractModel) ≠
      (⟨"eng", none, some "b/eng.traineddata", some "eng2"⟩ : TesseractModel) := by
  decide

/-- C5 (amended): record equality is field-wise over all four fields (paths
included); within any catalog the builder produces, however, `(language,
model)` does determine the record, because the builder dedups by key. -/
theorem c5_record_identity :
    (∀ r s : TesseractModel, r = s ↔
      (r.language = s.language ∧ r.model = s.model ∧
        r.full_path = s.full_path ∧ r.relative_path = s.relative_path)) ∧
    (∀ (root : String) (entries : List FsEntry) (r s : TesseractModel),
      r ∈ get_available_languages_with_models root entries →
      s ∈ get_available_languages_with_models root entries →
      r.language = s.language → r.model = s.model → r = s) := by
  constructor
  · intro r s
    constructor
    · intro h
      rw [h]
      exact ⟨rfl, rfl, rfl, rfl⟩
    · rintro ⟨h1, h2, h3, h4⟩
      cases r
      cases s
      simp only [TesseractModel.mk.injEq]
      exact ⟨h1, h2, h3, h4⟩
  · intro root entries r s hr hs hl hm
    by_contra hne
    have hwf := build_catalogWf root entries
    have hsym : Symmetric
        (fun x y : TesseractModel => ¬(x.language = y.language ∧ x.model = y.model)) :=
      fun x y h hxy => h ⟨hxy.1.symm, hxy.2.symm⟩
    exact (hwf.forall hsym hr hs hne) ⟨hl, hm⟩

theorem c5_witness :
    (⟨"eng", none, none, none⟩ : TesseractModel) = ⟨"eng", none, none, none⟩ :=
  (c5_record_identity.1 ⟨"eng", none, none, none⟩ ⟨"eng", none, none, none⟩).mpr
    ⟨rfl, rfl, rfl, rfl⟩

/-- C6 counterexample: the claim says `relativePath` never ends with the
model-file extension.  A file named `x.traineddata.traineddata` passes both
filters, but `relative_path` strips only one `.traineddata` (`strip_suffix`),
while the language name strips all of them (`trim_end_matches`): the produced
record's relative path `x.traineddata` still ends with the extension. -/
theorem c6_counterexample :
    get_available_languages_with_models "tessdata" [.file1 "x.traineddata.traineddata"] =
      [⟨"x", none, some "tessdata/x.traineddata.traineddata", some "x.traineddata"⟩] ∧
    strEndsWith "x.traineddata" EXT = true := by decide

/-- C6 (amended): for every record the builder produces from well-formed
directory entries, `relative_path` is the entry's below-root path with the
root prefix removed, no leading separator, and exactly one trailing
`.traineddata` stripped; consequently it ends with the extension only when the
file's stem itself still ends with the extension (doubled extension). -/
theorem c6_relative_path_shape (root : String) (entries : List FsEntry)
    (hwf : ∀ e ∈ entries, entryWf e) :
    ∀ r ∈ get_available_languages_with_models root entries,
      ∃ e ∈ entries, acceptedB e = true ∧
        r.relative_path = some (relNoExt e) ∧
        strStartsWith (relNoExt e) "/" = false ∧
        (strEndsWith (strDropRight (fileNameOf e) (strLen EXT)) EXT = false →
          strEndsWith (relNoExt e) EXT = false) := by
  intro r hr
  obtain ⟨e, he, ha, hrec⟩ := mem_build root entries hr
  have ht : is_traineddata_file e = true := ((Bool.and_eq_true _ _).mp ha).2
  refine ⟨e, he, ha, ?_, relNoExt_not_slash e (hwf e he), ?_⟩
  · rw [hrec]
    cases e with
    | file1 n => exact congrArg some (relative_path_eq root _ ht)
    | file2 d n => exact congrArg some (relative_path_eq root _ ht)
  · cases e with
    | file1 n => exact fun h => h
    | file2 d n => exact fun h => strEndsWith_slash_concat h

theorem c6_witness :
    ∃ e ∈ ([.file1 "eng.traineddata"] : List FsEntry), acceptedB e = true ∧
      (⟨"eng", none, some "tessdata/eng.traineddata", some "eng"⟩ :
          TesseractModel).relative_path = some (relNoExt e) ∧
      strStartsWith (relNoExt e) "/" = false ∧
      (strEndsWith (strDropRight (fileNameOf e) (strLen EXT)) EXT = false →
        strEndsWith (relNoExt e) EXT = false) :=
  c6_relative_path_shape "tessdata" [.file1 "eng.traineddata"]
    (fun e he => by
      rcases List.mem_singleton.mp he with rfl
      exact (by decide : strStartsWith "eng.traineddata" "/" = false))
    ⟨"eng", none, some "tessdata/eng.traineddata", some "eng"⟩ (by decide)

/-- C1 counterexample: the claim's precedence ignores the model-without-
language guard.  With catalog `{(eng, fast)}`, default language `eng` and the
query `{language: None, model: Some "fast"}`, the effective language `eng` has
a candidate whose model is exactly `fast`, so the claim requires that
candidate to be returned; the code instead fails with `ModelWithoutLanguage`
before ever looking at the catalog. -/
theorem c1_counterexample :
    (⟨"eng", some "fast", some "tessdata/eng/fast.traineddata", some "eng/fast"⟩ :
        TesseractModel) ∈
      candidatesOf
        [⟨"eng", some "fast", some "tessdata/eng/fast.traineddata", some "eng/fast"⟩]
        ⟨none, some "fast"⟩ "eng" ∧
    (⟨"eng", some "fast", some "tessdata/eng/fast.traineddata", some "eng/fast"⟩ :
        TesseractModel).model = some "fast" ∧
    validate_language_params ⟨none, some "fast"⟩
        [⟨"eng", some "fast", some "tessdata/eng/fast.traineddata", some "eng/fast"⟩]
        "eng" ≠
      .ok ⟨"eng", some "fast", some "tessdata/eng/fast.traineddata", some "eng/fast"⟩ ∧
    validate_language_params ⟨none, some "fast"⟩
        [⟨"eng", some "fast", some "tessdata/eng/fast.traineddata", some "eng/fast"⟩]
        "eng" =
      .error (.InvalidRequest msgModelWithoutLanguage) := by decide

/-- C1 (amended): provided the query passes the model-without-language guard
(`query.model` present implies `query.language` present - the only change the
counterexample forces) and the catalog satisfies its `(language, model)`
uniqueness invariant, resolution follows the claimed precedence exactly:
an explicit model match is returned; else a sole candidate is returned
regardless of its model field; else the unique unqualified candidate is
returned; otherwise resolution fails. -/
theorem c1_resolution_precedence (catalog : List TesseractModel)
    (params : ImagesQueryParams) (d : String)
    (hwf : catalogWf catalog)
    (hguard : params.model.isSome = true → params.language.isSome = true)
    (hne : candidatesOf catalog params d ≠ []) :
    (∀ m c, params.model = some m → c ∈ candidatesOf catalog params d →
      c.model = some m →
      validate_language_params params catalog d = .ok c) ∧
    (∀ c, params.model = none → candidatesOf catalog params d = [c] →
      validate_language_params params catalog d = .ok c) ∧
    (∀ c, params.model = none → c ∈ candidatesOf catalog params d →
      c.model = none →
      validate_language_params params catalog d = .ok c) ∧
    (∀ m, params.model = some m →
      (∀ c ∈ candidatesOf catalog params d, c.model ≠ some m) →
      ∃ msg, validate_language_params params catalog d =
        .error (.InvalidRequest msg)) ∧
    (params.model = none → 1 < (candidatesOf catalog params d).length →
      (∀ c ∈ candidatesOf catalog params d, c.model ≠ none) →
      ∃ msg, validate_language_params params catalog d =
        .error (.InvalidRequest msg)) := by
  have hgf : (params.model.isSome && params.language.isNone) = false := by
    cases hm : params.model with
    | none => simp [hm]
    | some m =>
        have := hguard (by simp [hm])
        simp [Option.isSome_iff_exists] at this
        obtain ⟨lang, hlang⟩ := this
        simp [hlang]
  have hval := validate_unfold params catalog d hgf
  have huniqm := filter_model_unique hwf (effLanguage params d)
  refine ⟨?_, ?_, ?_, ?_, ?_⟩
  · intro m c hm hc hcm
    rw [hval, hm, resolve_candidates_some m _ hne]
    have hfind : (candidatesOf catalog params d).find?
        (fun x => x.model == some m) = some c := by
      refine find?_eq_of_unique _ hc (by simp [hcm]) ?_
      intro a ha hpa
      exact huniqm a ha c hc ((beq_iff_eq.mp hpa).trans hcm.symm)
    rw [hfind]
  · intro c hm hcs
    rw [hval, hm, hcs, resolve_candidates_none_single]
  · intro c hm hc hcm
    rcases hcs : candidatesOf catalog params d with _ | ⟨c0, _ | ⟨c1, rest⟩⟩
    · exact absurd hcs hne
    · rw [hcs] at hc
      rcases List.mem_singleton.mp hc with rfl
      rw [hval, hm, hcs, resolve_candidates_none_single]
    · have h2 : 2 ≤ (candidatesOf catalog params d).length := by
        rw [hcs]
        simp
      rw [hval, hm, resolve_candidates_none_multi _ h2]
      have hfind : (candidatesOf catalog params d).find?
          (fun x => x.model.isNone) = some c := by
        refine find?_eq_of_unique _ hc (by simp [hcm]) ?_
        intro a ha hpa
        exact huniqm a ha c hc
          ((Option.isNone_iff_eq_none.mp hpa).trans hcm.symm)
      rw [hfind]
  · intro m hm hall
    rw [hval, hm, resolve_candidates_some m _ hne]
    have hfind : (candidatesOf catalog params d).find?
        (fun x => x.model == some m) = none := by
      rw [List.find?_eq_none]
      intro x hx hbx
      exact hall x hx (beq_iff_eq.mp hbx)
    rw [hfind]
    exact ⟨_, rfl⟩
  · intro hm hlen hall
    rw [hval, hm, resolve_candidates_none_multi _ hlen]
    have hfind : (candidatesOf catalog params d).find?
        (fun x => x.model.isNone) = none := by
      rw [List.find?_eq_none]
      intro x hx hbx
      exact hall x hx (Option.isNone_iff_eq_none.mp hbx)
    rw [hfind]
    exact ⟨_, rfl⟩

theorem c1_witness :
    validate_language_params ⟨some "eng", none⟩ [⟨"eng", none, none, none⟩] "eng" =
      .ok ⟨"eng", none, none, none⟩ :=
  (c1_resolution_precedence [⟨"eng", none, none, none⟩] ⟨some "eng", none⟩ "eng"
      (by simp [catalogWf]) (by decide) (by decide)).2.1
    ⟨"eng", none, none, none⟩ rfl (by decide)

/-- C2: resolution returns an error exactly when one of the four claimed
conditions holds - model without language, effective language unavailable,
requested model absent among the candidates, or no-model query over several
candidates none of which is unqualified - and, checked in the claimed order,
each condition produces its named error message. -/
theorem c2_error_taxonomy (catalog : List TesseractModel)
    (params : ImagesQueryParams) (d : String) :
    ((∃ msg, validate_language_params params catalog d =
        .error (.InvalidRequest msg)) ↔
      ((params.model.isSome = true ∧ params.language = none) ∨
        (∀ r ∈ catalog, r.language ≠ effLanguage params d) ∨
        (∃ m, params.model = some m ∧
          ∀ c ∈ candidatesOf catalog params d, c.model ≠ some m) ∨
        (params.model = none ∧ 1 < (candidatesOf catalog params d).length ∧
          ∀ c ∈ candidatesOf catalog params d, c.model ≠ none))) ∧
    ((params.model.isSome = true ∧ params.language = none) →
      validate_language_params params catalog d =
        .error (.InvalidRequest msgModelWithoutLanguage)) ∧
    (¬(params.model.isSome = true ∧ params.language = none) →
      (∀ r ∈ catalog, r.language ≠ effLanguage params d) →
      validate_language_params params catalog d =
        .error (.InvalidRequest (msgLanguageNotAvailable (effLanguage params d)))) ∧
    (∀ m, ¬(params.model.isSome = true ∧ params.language = none) →
      params.model = some m →
      ¬(∀ r ∈ catalog, r.language ≠ effLanguage params d) →
      (∀ c ∈ candidatesOf catalog params d, c.model ≠ some m) →
      validate_language_params params catalog d =
        .error (.InvalidRequest (msgModelNotFound m (effLanguage params d)))) ∧
    (params.model = none → 1 < (candidatesOf catalog params d).length →
      (∀ c ∈ candidatesOf catalog params d, c.model ≠ none) →
      validate_language_params params catalog d =
        .error (.InvalidRequest (msgAmbiguous (effLanguage params d)))) := by
  by_cases hg : (params.model.isSome && params.language.isNone) = true
  · obtain ⟨hms, hln⟩ := (Bool.and_eq_true _ _).mp hg
    have hleq : params.language = none := Option.isNone_iff_eq_none.mp hln
    have hval := validate_guard params catalog d hg
    refine ⟨⟨fun _ => Or.inl ⟨hms, hleq⟩, fun _ => ⟨_, hval⟩⟩,
      fun _ => hval, ?_, ?_, ?_⟩
    · intro h1 _
      exact absurd ⟨hms, hleq⟩ h1
    · intro m h1 _ _ _
      exact absurd ⟨hms, hleq⟩ h1
    · intro hmn _ _
      rw [hmn] at hms
      simp at hms
  · have hgf : (params.model.isSome && params.language.isNone) = false :=
      Bool.eq_false_iff.mpr hg
    have h1f : ¬(params.model.isSome = true ∧ params.language = none) := by
      rintro ⟨h1, h2⟩
      simp [h1, h2] at hgf
    have hval := validate_unfold params catalog d hgf
    by_cases hnil : candidatesOf catalog params d = []
    · have h2holds := (candidates_nil_iff catalog params d).mp hnil
      have hval2 : validate_language_params params catalog d =
          .error (.InvalidRequest (msgLanguageNotAvailable (effLanguage params d))) := by
        rw [hval, hnil, resolve_candidates_nil]
      refine ⟨⟨fun _ => Or.inr (Or.inl h2holds), fun _ => ⟨_, hval2⟩⟩,
        fun h1 => absurd h1 h1f, fun _ _ => hval2, ?_, ?_⟩
      · intro m _ _ h2n _
        exact absurd h2holds h2n
      · intro _ hlen _
        rw [hnil] at hlen
        simp at hlen
    · have h2f : ¬(∀ r ∈ catalog, r.language ≠ effLanguage params d) := fun h =>
        hnil ((candidates_nil_iff catalog params d).mpr h)
      cases hm : params.model with
      | some m =>
          have h1fs : ¬((some m : Option String).isSome = true ∧
              params.language = none) := by
            rintro ⟨-, h2⟩
            rw [hm, h2] at hgf
            simp at hgf
          rw [hm] at hval
          rw [resolve_candidates_some m _ hnil] at hval
          cases hfind : (candidatesOf catalog params d).find?
              (fun x => x.model == some m) with
          | some c =>
              rw [hfind] at hval
              replace hval : validate_language_params params catalog d = .ok c := hval
              have hpc := List.find?_some hfind
              have hcm : c.model = some m := beq_iff_eq.mp hpc
              have hcmem := List.mem_of_find?_eq_some hfind
              refine ⟨⟨?_, ?_⟩, fun h1 => absurd h1 h1fs,
                fun _ h2 => absurd h2 h2f, ?_, ?_⟩
              · rintro ⟨msg, hmsg⟩
                cases hval.symm.trans hmsg
              · rintro (h1 | h2 | ⟨m2, hm2, hall⟩ | ⟨hmn, _, _⟩)
                · exact absurd h1 h1fs
                · exact absurd h2 h2f
                · obtain rfl : m = m2 := Option.some.inj hm2
                  exact absurd hcm (hall c hcmem)
                · cases hmn
              · intro m2 _ hm2 _ hall
                obtain rfl : m = m2 := Option.some.inj hm2
                exact absurd hcm (hall c hcmem)
              · intro hmn _ _
                cases hmn
          | none =>
              rw [hfind] at hval
              replace hval : validate_language_params params catalog d =
                .error (.InvalidRequest (msgModelNotFound m (effLanguage params d))) := hval
              have hall : ∀ c ∈ candidatesOf catalog params d, c.model ≠ some m := by
                intro x hx hbx
                exact (List.find?_eq_none.mp hfind x hx) (beq_iff_eq.mpr hbx)
              refine ⟨⟨fun _ => Or.inr (Or.inr (Or.inl ⟨m, rfl, hall⟩)),
                fun _ => ⟨_, hval⟩⟩, fun h1 => absurd h1 h1fs,
                fun _ h2 => absurd h2 h2f, ?_, ?_⟩
              · intro m2 _ hm2 _ _
                obtain rfl : m = m2 := Option.some.inj hm2
                exact hval
              · intro hmn _ _
                cases hmn
      | none =>
          rcases hcs : candidatesOf catalog params d with _ | ⟨c0, _ | ⟨c1, rest⟩⟩
          · exact absurd hcs hnil
          · rw [hm, hcs, resolve_candidates_none_single] at hval
            refine ⟨⟨?_, ?_⟩, fun h1 => absurd h1.1 (by simp),
              fun _ h2 => absurd h2 h2f, ?_, ?_⟩
            · rintro ⟨msg, hmsg⟩
              cases hval.symm.trans hmsg
            · rintro (h1 | h2 | ⟨m2, hm2, _⟩ | ⟨_, hlen, _⟩)
              · exact absurd h1.1 (by simp)
              · exact absurd h2 h2f
              · cases hm2
              · simp at hlen
            · intro m2 _ hm2 _ _
              cases hm2
            · intro _ hlen _
              simp at hlen
          · have h2le : 2 ≤ (candidatesOf catalog params d).length := by
              rw [hcs]
              simp
            rw [hm, resolve_candidates_none_multi _ h2le] at hval
            have hlt : 1 < (c0 :: c1 :: rest).length := by simp
            cases hfind : (candidatesOf catalog params d).find?
                (fun x => x.model.isNone) with
            | some c =>
                rw [hfind] at hval
                replace hval : validate_language_params params catalog d = .ok c := hval
                have hpc := List.find?_some hfind
                have hcm : c.model = none := Option.isNone_iff_eq_none.mp hpc
                have hcmem := List.mem_of_find?_eq_some hfind
                rw [hcs] at hcmem
                refine ⟨⟨?_, ?_⟩, fun h1 => absurd h1.1 (by simp),
                  fun _ h2 => absurd h2 h2f, ?_, ?_⟩
                · rintro ⟨msg, hmsg⟩
                  cases hval.symm.trans hmsg
                · rintro (h1 | h2 | ⟨m2, hm2, _⟩ | ⟨_, _, hall⟩)
                  · exact absurd h1.1 (by simp)
                  · exact absurd h2 h2f
                  · cases hm2
                  · exact absurd hcm (hall c hcmem)
                · intro m2 _ hm2 _ _
                  cases hm2
                · intro _ _ hall
                  exact absurd hcm (hall c hcmem)
            | none =>
                rw [hfind] at hval
                replace hval : validate_language_params params catalog d =
                  .error (.InvalidRequest (msgAmbiguous (effLanguage params d))) := hval
                have hall : ∀ c ∈ (c0 :: c1 :: rest), c.model ≠ none := by
                  intro x hx hbx
                  rw [← hcs] at hx
                  exact (List.find?_eq_none.mp hfind x hx)
                    (Option.isNone_iff_eq_none.mpr hbx)
                refine ⟨⟨fun _ => Or.inr (Or.inr (Or.inr ⟨rfl, hlt, hall⟩)),
                  fun _ => ⟨_, hval⟩⟩, fun h1 => absurd h1.1 (by simp),
                  fun _ h2 => absurd h2 h2f, ?_, ?_⟩
                · intro m2 _ hm2 _ _
                  cases hm2
                · intro _ _ _
                  exact hval

theorem c2_witness :
    validate_language_params ⟨none, some "fast"⟩ [] "eng" =
      .error (.InvalidRequest msgModelWithoutLanguage) :=
  (c2_error_taxonomy [] ⟨none, some "fast"⟩ "eng").2.1 ⟨rfl, rfl⟩

end OcrService
